import Mathlib

/-!
Verification of the conversation-reconstruction and content-normalization
pipeline of the `fastmail-agent` repository (Go).

Strings are modelled as `List Char` (`Str`).  Each Go function of the core
(`tui/threadlist.go`, `export/quotes.go`, `export/html.go`, `export/export.go`,
`jmap/email.go`) is embedded as an executable Lean definition of the same
name.  Go regular expressions (RE2) are embedded via a small Brzozowski
derivative matcher whose patterns mirror the source patterns; RE2 character
class `\s` is `[\t\n\f\r ]`, while Go's `strings.TrimSpace` trims Unicode
white space — the two sets are deliberately kept distinct, exactly as in the
source.  External collaborators (the `golang.org/x/net/html` parser and
`time.Parse`) are modelled explicitly where noted.
-/

set_option maxRecDepth 10000

abbrev Str := List Char

/-- RE2 character class `\s` = `[\t\n\f\r ]` (ASCII only, no `\v`). -/
def regexSpace (c : Char) : Bool :=
  c == ' ' || c == '\t' || c == '\n' || c == '\x0c' || c == '\r'

/-- Go `unicode.IsSpace`: the Unicode White_Space property (note: this
includes `\v`, U+0085 and U+00A0, which RE2's `\s` does not). -/
def isGoSpace (c : Char) : Bool :=
  c == '\t' || c == '\n' || c == '\x0b' || c == '\x0c' || c == '\r' || c == ' ' ||
  c == '\u0085' || c == ' ' || c == ' ' ||
  (' ' ≤ c && c ≤ ' ') ||
  c == ' ' || c == ' ' || c == ' ' || c == ' ' || c == '　'

/-- ASCII lower-casing of one character (models Go `strings.ToLower` /
RE2 `(?i)` folding on the ASCII range, which is all the pipeline uses). -/
def asciiLower (c : Char) : Char :=
  if 'A' ≤ c && c ≤ 'Z' then Char.ofNat (c.toNat + 32) else c

def lowerStr (s : Str) : Str := s.map asciiLower

/-- Drop the trailing characters satisfying `p` (helper for trimming). -/
def dropTrailing (p : Char → Bool) (s : Str) : Str :=
  (s.reverse.dropWhile p).reverse

/-- Go `strings.TrimSpace`. -/
def goTrim (s : Str) : Str :=
  dropTrailing isGoSpace (s.dropWhile isGoSpace)

/-- Go `strings.Split(s, "\n")`. -/
def splitNL : Str → List Str
  | [] => [[]]
  | c :: cs =>
    let r := splitNL cs
    if c = '\n' then [] :: r
    else
      match r with
      | h :: t => (c :: h) :: t
      | [] => [[c]]

/-- Go `strings.Join(lines, "\n")`. -/
def joinNL : List Str → Str
  | [] => []
  | [l] => l
  | l :: ls => l ++ '\n' :: joinNL ls

/-- Does `s` start (case-insensitively, ASCII) with the word `w`
(where `w` is already lower-case)? -/
def startsWithLower : Str → Str → Bool
  | [], _ => true
  | _ :: _, [] => false
  | w0 :: w1, c :: cs => (asciiLower c == w0) && startsWithLower w1 cs

/-! ### A small Brzozowski-derivative matcher for the RE2 patterns

The source uses Go `regexp` (RE2).  Each pattern of `export/quotes.go` and
`tui/threadlist.go` is rebuilt below from the same primitives; matching is by
derivatives, so existence of a match is decided exactly. -/

inductive RE where
  | emp : RE
  | eps : RE
  | cls (p : Char → Bool) : RE
  | cat (a b : RE) : RE
  | alt (a b : RE) : RE
  | star (a : RE) : RE

def RE.nullable : RE → Bool
  | .emp => false
  | .eps => true
  | .cls _ => false
  | .cat a b => a.nullable && b.nullable
  | .alt a b => a.nullable || b.nullable
  | .star _ => true

def RE.deriv : RE → Char → RE
  | .emp, _ => .emp
  | .eps, _ => .emp
  | .cls p, c => if p c then .eps else .emp
  | .cat a b, c =>
    if a.nullable then .alt (.cat (a.deriv c) b) (b.deriv c)
    else .cat (a.deriv c) b
  | .alt a b, c => .alt (a.deriv c) (b.deriv c)
  | .star a, c => .cat (a.deriv c) (.star a)

/-- Some (possibly empty) front part of `s` matches `r`. -/
def matchesSomeFront (r : RE) : Str → Bool
  | [] => r.nullable
  | c :: cs => r.nullable || matchesSomeFront (r.deriv c) cs

/-- Some front part of `s` matches `r` and ends at a line end (`$` with
`(?m)`): either at the end of the text or just before a `'\n'`. -/
def matchesFrontLE (r : RE) : Str → Bool
  | [] => r.nullable
  | c :: cs => (r.nullable && c == '\n') || matchesFrontLE (r.deriv c) cs

/-- one literal character -/
def RE.lit (c : Char) : RE := .cls (fun d => d == c)

/-- one character, case-insensitively (RE2 `(?i)`, ASCII folding) -/
def RE.litCI (c : Char) : RE := .cls (fun d => asciiLower d == asciiLower c)

/-- a literal word, case-insensitively -/
def RE.wordCI (w : Str) : RE := w.foldr (fun c r => .cat (.litCI c) r) .eps

/-- RE2 `.` : any character except `'\n'`. -/
def RE.dot : RE := .cls (fun c => c != '\n')

/-- RE2 `\s` -/
def RE.sp : RE := .cls regexSpace

def RE.plus (r : RE) : RE := .cat r (.star r)

def RE.opt (r : RE) : RE := .alt .eps r

/-- Five or more repetitions of the character `c`. -/
def RE.rep5 (c : Char) : RE :=
  .cat (.lit c) (.cat (.lit c) (.cat (.lit c) (.cat (.lit c) (.plus (.lit c)))))

/-! ### Line-anchored search and truncation

All `^`-anchored patterns can only match at a line start; Go
`FindStringIndex` returns the leftmost match, i.e. the first line start whose
suffix matches.  The source always truncates to `body[:loc[0]]` followed by
`strings.TrimSpace`, which is `goTrim (joinNL (lines.take i))`. -/

/-- Index of the first line whose suffix (from that line start to the end of
the text) satisfies `pred`, if any. -/
def findLineIdx (pred : Str → Bool) : List Str → Option Nat
  | [] => none
  | l :: ls =>
    if pred (joinNL (l :: ls)) then some 0
    else (findLineIdx pred ls).map (· + 1)

/-- Truncation: TrimSpace of the text before the first line-anchored match of
`pred`, or `body` unchanged when there is no match. -/
def truncAtLineMatch (pred : Str → Bool) (body : Str) : Str :=
  let lines := splitNL body
  match findLineIdx pred lines with
  | some i => goTrim (joinNL (lines.take i))
  | none => body

/-! ### Whitespace collapsing (the `regexp.ReplaceAllString` steps) -/

/-- Helper for collapsing runs of space and tab (flag: inside a run?). -/
def collapseSTGo (inRun : Bool) : Str → Str
  | [] => []
  | c :: cs =>
    if c == ' ' || c == '\t' then
      if inRun then collapseSTGo true cs else ' ' :: collapseSTGo true cs
    else c :: collapseSTGo false cs

/-- Go regexp replacement of every run of spaces and tabs by one space. -/
def collapseST (s : Str) : Str := collapseSTGo false s

/-- Helper for collapsing newline runs (carries the number of pending newlines):
a maximal run of three or more newlines becomes exactly two. -/
def collapseNLGo (n : Nat) : Str → Str
  | [] => List.replicate (min n 2) '\n'
  | c :: cs =>
    if c == '\n' then collapseNLGo (n + 1) cs
    else List.replicate (min n 2) '\n' ++ c :: collapseNLGo 0 cs

/-- Go regexp replacement of every run of three or more newlines by two. -/
def collapseNL3 (s : Str) : Str := collapseNLGo 0 s

/-- Helper for collapsing regex-whitespace runs to one space (in-run flag). -/
def collapseWSGo (inRun : Bool) : Str → Str
  | [] => []
  | c :: cs =>
    if regexSpace c then
      if inRun then collapseWSGo true cs else ' ' :: collapseWSGo true cs
    else c :: collapseWSGo false cs

/-- Go regexp replacement of every run of regex whitespace by one space. -/
def collapseWS (s : Str) : Str := collapseWSGo false s

/-! ### Quote detection patterns (`export/quotes.go`, lines 9-24) -/

/-- Pattern body of the attribution line (without the anchors):
`On .+wrote:\s*` — used with `(?im)^ ... $`. -/
def attributionRE : RE :=
  .cat (.wordCI ("on".data)) (.cat (.lit ' ')
    (.cat (.plus .dot) (.cat (.wordCI ("wrote:".data)) (.star .sp))))

/-- Gmail-style forwarded-message marker: five or more dashes, `\s*`,
`Forwarded message` (case-insensitively), `\s*`, five or more dashes. -/
def forwardedRE : RE :=
  .cat (.rep5 '-') (.cat (.star .sp)
    (.cat (.wordCI ("forwarded message".data)) (.cat (.star .sp) (.rep5 '-'))))

/-- Outlook-style original-message marker. -/
def originalMsgRE : RE :=
  .cat (.rep5 '-') (.cat (.star .sp)
    (.cat (.wordCI ("original message".data)) (.cat (.star .sp) (.rep5 '-'))))

/-- One header line of the Outlook block: the keyword, `\s*`, `.+`, newline. -/
def headerLineRE (key : Str) : RE :=
  .cat (.wordCI key) (.cat (.star .sp) (.cat (.plus .dot) (.lit '\n')))

/-- Outlook-style quoted header block:
a `From:` line, a `Sent:` or `Date:` line, a `To:` line, an optional `Cc:`
line, then `Subject:` with `\s*.+` up to a line end. -/
def outlookHeaderRE : RE :=
  .cat (headerLineRE ("from:".data))
    (.cat (.alt (headerLineRE ("sent:".data)) (headerLineRE ("date:".data)))
      (.cat (headerLineRE ("to:".data))
        (.cat (.opt (headerLineRE ("cc:".data)))
          (.cat (.wordCI ("subject:".data)) (.cat (.star .sp) (.plus .dot))))))

/-- RFC signature delimiter pattern body: two dashes then `\s*`, with `$`. -/
def sigDelimiterRE : RE := .cat (.lit '-') (.cat (.lit '-') (.star .sp))

/-- The common mobile/client signature phrases, already lower-cased; each
pattern is start-anchored and ends in a free `.*`, so on a single trimmed
line it is exactly a case-insensitive starts-with test. -/
def sigPhraseHeads : List Str :=
  [ "sent from my iphone".data, "sent from my ipad".data,
    "sent from my android".data, "sent from my mobile".data,
    "sent from my galaxy".data, "sent from my pixel".data,
    "get outlook for ".data,
    "sent from mail for windows".data,
    "sent from yahoo mail".data,
    "sent via ".data ]

/-- Does the (already TrimSpace'd) line match one of `sigPhrasePatterns`? -/
def matchesSigPhrase (line : Str) : Bool :=
  sigPhraseHeads.any (fun w => startsWithLower w line)

/-! ### `StripQuotes` (`export/quotes.go`, lines 42-67) -/

/-- Step 1 of `StripQuotes`: truncate at the attribution line. -/
def truncAttribution (body : Str) : Str :=
  truncAtLineMatch (matchesFrontLE attributionRE) body

/-- Step 2a: truncate at the forwarded-message marker. -/
def truncForwarded (body : Str) : Str :=
  truncAtLineMatch (matchesSomeFront forwardedRE) body

/-- Step 2b: truncate at the original-message marker. -/
def truncOriginal (body : Str) : Str :=
  truncAtLineMatch (matchesSomeFront originalMsgRE) body

/-- Step 3: truncate at the Outlook-style header block. -/
def truncOutlook (body : Str) : Str :=
  truncAtLineMatch (matchesFrontLE outlookHeaderRE) body

/-- Step 4: remove every line starting with one or more `>` characters
(the whole matched line is replaced by the empty string; the newlines stay). -/
def removeQuotedLines (body : Str) : Str :=
  joinNL ((splitNL body).map (fun l => if l.head? = some '>' then [] else l))

/-- Go `StripQuotes` (`export/quotes.go`): the four truncation steps in
source order, then quoted-line removal, blank-line collapsing, and a final
TrimSpace. -/
def StripQuotes (body : Str) : Str :=
  goTrim (collapseNL3 (removeQuotedLines
    (truncOutlook (truncOriginal (truncForwarded (truncAttribution body))))))

/-! ### `StripSignature` (`export/quotes.go`, lines 70-92) -/

/-- Method 1: truncate at the first line matching the delimiter pattern. -/
def truncSigDelimiter (body : Str) : Str :=
  truncAtLineMatch (matchesFrontLE sigDelimiterRE) body

/-- Method 2 scan: the loop index runs from `len-1` down to `len-5`
(and not below 0); blank lines inside that window are skipped (they do not
count as candidates, but they do use up window positions). -/
def sigScanIdxs (n : Nat) : List Nat :=
  ((List.range n).filter (fun i => n ≤ i + 5)).reverse

/-- Go `StripSignature` (`export/quotes.go`): the delimiter truncation, then
the phrase scan over the last five lines of the (possibly already truncated)
text. -/
def StripSignature (body : Str) : Str :=
  let body1 := truncSigDelimiter body
  let lines := splitNL body1
  match (sigScanIdxs lines.length).find?
      (fun i =>
        let line := goTrim (lines.getD i [])
        line ≠ [] && matchesSigPhrase line) with
  | some i => goTrim (joinNL (lines.take i))
  | none => body1

/-! ### `NormalizeSubject` (`tui/threadlist.go`, lines 25-40) -/

/-- One application of the anchored replacement
`regexp.MustCompile("(?i)^(re|fwd|fw):\\s*").ReplaceAllString(s, "")`:
the pattern is start-anchored, so at most the front is replaced; `none`
when the front does not match (the loop's fixpoint test). -/
def tryStripMark (s : Str) : Option Str :=
  if startsWithLower ("re:".data) s then some ((s.drop 3).dropWhile regexSpace)
  else if startsWithLower ("fwd:".data) s then some ((s.drop 4).dropWhile regexSpace)
  else if startsWithLower ("fw:".data) s then some ((s.drop 3).dropWhile regexSpace)
  else none

/-- The `for` loop of `NormalizeSubject`: strip reply/forward marks until the
text no longer changes.  Each successful strip removes at least three
characters, so `s.length` steps of fuel always reach the fixpoint. -/
def stripMarksGo (fuel : Nat) (s : Str) : Str :=
  match fuel with
  | 0 => s
  | fuel + 1 =>
    match tryStripMark s with
    | some s2 => stripMarksGo fuel s2
    | none => s

def stripMarks (s : Str) : Str := stripMarksGo s.length s

/-- Go `NormalizeSubject` (`tui/threadlist.go`): strip `Re:`/`Fwd:`/`Fw:`
marks repeatedly, TrimSpace, collapse whitespace runs, lower-case. -/
def NormalizeSubject (subject : Str) : Str :=
  lowerStr (collapseWS (goTrim (stripMarks subject)))

/-! ### `cleanWhitespace` (`export/html.go`, lines 100-117) -/

/-- The per-line trim step of `cleanWhitespace`: split on newlines,
TrimSpace every line, join back. -/
def trimLines (s : Str) : Str :=
  joinNL ((splitNL s).map goTrim)

/-- Go `cleanWhitespace` (`export/html.go`): collapse space/tab runs, then
collapse runs of three or more newlines to two, then trim each line, then
TrimSpace the whole string. -/
def cleanWhitespace (s : Str) : Str :=
  goTrim (trimLines (collapseNL3 (collapseST s)))

/-! ### The HTML-to-text extractor (`export/html.go`, lines 41-70)

The `golang.org/x/net/html` parser is an external library; the extractor is
embedded on its output type: a tree of text and element nodes.  (`extractText`
ignores node types other than text and element, so those are not modelled.) -/

mutual
inductive HNode where
  | text (s : Str) : HNode
  | elem (tag : Str) (kids : HForest) : HNode
inductive HForest where
  | nil : HForest
  | cons (n : HNode) (f : HForest) : HForest
end

/-- Tags skipped entirely (with their subtrees). -/
def skipTags : List Str := ["script".data, "style".data, "head".data]

/-- Tags that get a newline on entry (together with `br`). -/
def entryNLTags : List Str :=
  ["p".data, "div".data, "h1".data, "h2".data, "h3".data, "h4".data,
   "h5".data, "h6".data, "li".data, "tr".data]

/-- Tags that get a trailing newline after their children. -/
def exitNLTags : List Str :=
  ["p".data, "div".data, "h1".data, "h2".data, "h3".data, "h4".data,
   "h5".data, "h6".data, "ul".data, "ol".data, "table".data]

mutual
/-- Go `extractText` (`export/html.go`): text nodes verbatim; skip
`script`/`style`/`head` subtrees; a newline on entry for `br` and the
block-entry tags; children; a trailing newline for the block-exit tags. -/
def extractText : HNode → Str
  | .text s => s
  | .elem tag kids =>
    if tag ∈ skipTags then []
    else
      (if tag = ("br".data) then ['\n']
       else if tag ∈ entryNLTags then ['\n'] else []) ++
      extractForest kids ++
      (if tag ∈ exitNLTags then ['\n'] else [])
def extractForest : HForest → Str
  | .nil => []
  | .cons n f => extractText n ++ extractForest f
end

/-! ### The data model (`jmap/types.go`) — the fields this core reads -/

structure EmailAddress where
  Name : Str
  Email : Str
deriving DecidableEq

structure BodyPart where
  PartID : Str
  PartType : Str
deriving DecidableEq

/-- A JMAP email record, restricted to the fields the conversation and
normalization core reads.  `BodyValues` (a Go `map[string]BodyValue`) is
modelled as an association list from part id to body value. -/
structure Email where
  ID : Str
  From : List EmailAddress
  Subject : Str
  ReceivedAt : Str
  Preview : Str
  TextBody : List BodyPart
  HTMLBody : List BodyPart
  BodyValues : List (Str × Str)
deriving DecidableEq

def emptyEmail : Email :=
  ⟨[], [], [], [], [], [], [], []⟩

/-- Go map lookup `e.BodyValues[partID]` (string keys compare by equality;
an association list with first-match lookup models the finite map). -/
def lookupBV (bvs : List (Str × Str)) (partID : Str) : Option Str :=
  (bvs.find? (fun p => decide (p.1 = partID))).map (·.2)

/-- The first listed body part whose part id has a fetched body value
(one of the two `for` loops of `GetBodyText`). -/
def firstBodyValue (parts : List BodyPart) (bvs : List (Str × Str)) : Option Str :=
  match parts with
  | [] => none
  | p :: ps =>
    match lookupBV bvs p.PartID with
    | some v => some v
    | none => firstBodyValue ps bvs

/-- Go `(*Email).GetBodyText` (`jmap/email.go`, lines 217-233): prefer the
text body, fall back to the HTML body, then to the preview. -/
def GetBodyText (e : Email) : Str :=
  match firstBodyValue e.TextBody e.BodyValues with
  | some v => v
  | none =>
    match firstBodyValue e.HTMLBody e.BodyValues with
    | some v => v
    | none => e.Preview

/-! ### Timestamps

`time.Parse(time.RFC3339, s)` is an external library call.  Modelled from
its documented behaviour on the layout the server uses: a string of the exact
shape `YYYY-MM-DDTHH:MM:SSZ` parses to a value that orders chronologically
(digit-lexicographically); anything else fails, and a failed parse leaves the
zero time — the lowest value the comparison `ti.Before(tj)` can see. -/
def parseRFC3339 (s : Str) : Option Nat :=
  match s with
  | [y1, y2, y3, y4, '-', m1, m2, '-', d1, d2, 'T',
     h1, h2, ':', n1, n2, ':', s1, s2, 'Z'] =>
    let ds := [y1, y2, y3, y4, m1, m2, d1, d2, h1, h2, n1, n2, s1, s2]
    if ds.all Char.isDigit then
      some (ds.foldl (fun acc c => acc * 10 + (c.toNat - 48)) 0)
    else none
  | _ => none

/-- The sort key of one email: the parsed time, a failed parse counting as
the zero time. -/
def dateKeyOf (e : Email) : Nat := (parseRFC3339 e.ReceivedAt).getD 0

/-- The comparison the `sort.Slice` call induces on the group members. -/
def byDate (a b : Email) : Prop := dateKeyOf a ≤ dateKeyOf b

instance : DecidableRel byDate := fun a b => Nat.decLe (dateKeyOf a) (dateKeyOf b)

instance : IsTotal Email byDate := ⟨fun a b => Nat.le_total (dateKeyOf a) (dateKeyOf b)⟩

instance : IsTrans Email byDate := ⟨fun _ _ _ h1 h2 => Nat.le_trans h1 h2⟩

/-! ### `GroupEmailsBySubject` (`tui/threadlist.go`, lines 43-94) -/

structure ThreadItem where
  NormalizedSubject : Str
  Subject : Str
  From : Str
  Date : Nat
  Preview : Str
  EmailCount : Nat
  Emails : List Email
deriving DecidableEq

/-- The normalized-subject grouping key of one email. -/
def normKey (e : Email) : Str := NormalizeSubject e.Subject

/-- The `order` slice: each distinct key is appended when first seen
(`if _, exists := groups[key]; !exists`). -/
def groupOrder (emails : List Email) : List Str :=
  emails.foldl
    (fun acc e => if normKey e ∈ acc then acc else acc ++ [normKey e]) []

/-- The `groups[key]` slice: the map entry accumulates exactly the input
emails with that key, in input order. -/
def groupOf (emails : List Email) (key : Str) : List Email :=
  emails.filter (fun e => decide (normKey e = key))

/-- The representative-sender field: the display name, falling back to the
raw address, or empty when there is no sender. -/
def fromOf (e : Email) : Str :=
  match e.From with
  | [] => []
  | a :: _ => if a.Name ≠ [] then a.Name else a.Email

/-- One `ThreadItem` built from a key and its date-sorted member list
(`newest := groupEmails[len(groupEmails)-1]`). -/
def mkThreadItem (key : Str) (sorted : List Email) : ThreadItem :=
  let newest := sorted.getLastD emptyEmail
  { NormalizedSubject := key
    Subject := newest.Subject
    From := fromOf newest
    Date := dateKeyOf newest
    Preview := newest.Preview
    EmailCount := sorted.length
    Emails := sorted }

/-- Go `GroupEmailsBySubject` (`tui/threadlist.go`): group by normalized
subject, keep first-seen key order, sort each group by received date, and
draw the display fields from the newest member. -/
def GroupEmailsBySubject (emails : List Email) : List ThreadItem :=
  (groupOrder emails).map
    (fun key => mkThreadItem key (List.insertionSort byDate (groupOf emails key)))

/-! ### `CleanBody` (`export/export.go`, lines 87-108)

The two markup conversions call the external `golang.org/x/net/html` parser,
so `CleanBody` is embedded with them as explicit function parameters. -/

structure ExportOptions where
  StripQuotes : Bool
  StripSignatures : Bool
deriving DecidableEq

/-- Go `CleanBody` (`export/export.go`): when the body contains both `<` and
`>`, convert markup to text (with or without markup-level quote removal);
then strip quotes and the signature according to the options. -/
def CleanBody (htmlToText htmlToTextStripQuotes : Str → Str)
    (body : Str) (opts : ExportOptions) : Str :=
  let body1 :=
    if body.contains '<' && body.contains '>' then
      if opts.StripQuotes then htmlToTextStripQuotes body else htmlToText body
    else body
  let body2 := if opts.StripQuotes then StripQuotes body1 else body1
  if opts.StripSignatures then StripSignature body2 else body2

/-! ### Spec-side definitions used to state the claims -/

/-- The spec's description of the conversation order: the order in which each
distinct normalized-subject key was first encountered in the input. -/
def firstSeenKeyOrder (emails : List Email) : List Str :=
  emails.foldl
    (fun seen e =>
      if NormalizeSubject e.Subject ∈ seen then seen
      else seen ++ [NormalizeSubject e.Subject]) []

/-- Modelled from the claim's words (C6): truncate at the first `--`
delimiter line if one exists anywhere in the body; *otherwise* scan the last
5 *non-empty* lines backward from the end for a signature phrase. -/
def stripSignatureClaimed (body : Str) : Str :=
  let lines := splitNL body
  match findLineIdx (matchesFrontLE sigDelimiterRE) lines with
  | some i => goTrim (joinNL (lines.take i))
  | none =>
    let nonEmptyIdxs :=
      (List.range lines.length).filter (fun i => goTrim (lines.getD i []) ≠ [])
    match (nonEmptyIdxs.reverse.take 5).find?
        (fun i => matchesSigPhrase (goTrim (lines.getD i []))) with
    | some i => goTrim (joinNL (lines.take i))
    | none => body

/-- The amended description of `StripSignature`: the delimiter truncation is
followed (not replaced) by the phrase scan, and the scan window is the last
five *lines* of the already-truncated text — blank lines inside the window
are skipped but still use up window positions. -/
def stripSignatureDescribed (body : Str) : Str :=
  let afterDelim := truncAtLineMatch (matchesFrontLE sigDelimiterRE) body
  let lines := splitNL afterDelim
  match ((List.range lines.length).reverse.take 5).find?
      (fun i =>
        let line := goTrim (lines.getD i [])
        line ≠ [] && matchesSigPhrase line) with
  | some i => goTrim (joinNL (lines.take i))
  | none => afterDelim

/-- The amended description of the extractor's entry/exit newline sets:
tags that get a newline both on entry and after their children. -/
def bothNLTags : List Str :=
  ["p".data, "div".data, "h1".data, "h2".data, "h3".data, "h4".data,
   "h5".data, "h6".data]

/-- Tags that get a newline on entry only (the claim said these also get one
after their children; the code does not give them one). -/
def entryOnlyNLTags : List Str := ["li".data, "tr".data]

/-- Tags that get a newline after their children only (the claim omitted
these). -/
def exitOnlyNLTags : List Str := ["ul".data, "ol".data, "table".data]

/-! #### Concrete inputs used by counterexamples and witnesses -/

def mkDemoEmail (subj recv : Str) : Email :=
  { ID := [], From := [], Subject := subj, ReceivedAt := recv, Preview := [],
    TextBody := [], HTMLBody := [], BodyValues := [] }

/-- Subjects A, B, A in that input order (claim C2's example). -/
def demoABA : List Email :=
  [mkDemoEmail ("A".data) [], mkDemoEmail ("B".data) [], mkDemoEmail ("A".data) []]

/-- Two emails of one conversation, newest first in the input (claim C3). -/
def demoThread : List Email :=
  [{ ID := "1".data,
     From := [⟨"Ann".data, "ann@x.com".data⟩],
     Subject := "Re: Trip".data,
     ReceivedAt := "2024-01-02T10:00:00Z".data,
     Preview := "see you".data,
     TextBody := [], HTMLBody := [], BodyValues := [] },
   { ID := "2".data,
     From := [⟨[], "bob@x.com".data⟩],
     Subject := "Trip".data,
     ReceivedAt := "2024-01-01T09:00:00Z".data,
     Preview := "plan".data,
     TextBody := [], HTMLBody := [], BodyValues := [] }]

/-- An email with no body parts at all but a non-empty preview (claim C9). -/
def previewOnlyEmail : Email :=
  { ID := [], From := [], Subject := [], ReceivedAt := [], Preview := "p".data,
    TextBody := [], HTMLBody := [], BodyValues := [] }

/-- An email whose listed text part has no fetched body value (claim C9's
amended statement, witness). -/
def unfetchedEmail : Email :=
  { ID := [], From := [], Subject := [], ReceivedAt := [],
    Preview := "pv".data,
    TextBody := [⟨"1".data, "text/plain".data⟩],
    HTMLBody := [⟨"2".data, "text/html".data⟩],
    BodyValues := [(("3".data), ("other".data))] }

/-- The conversation that grouping `demoThread` must produce: one item whose
members are the two emails in ascending date order (claim C3's witness). -/
def demoItem : ThreadItem :=
  mkThreadItem ("trip".data)
    [demoThread.getD 1 emptyEmail, demoThread.getD 0 emptyEmail]

/-- Scanner for a run of three consecutive newlines (`run` counts the
newlines immediately before the current position); used to reason about the
newline-collapsing step. -/
def hasNL3Go (run : Nat) : Str → Bool
  | [] => false
  | c :: cs =>
    if c = '\n' then (if 2 ≤ run then true else hasNL3Go (run + 1) cs)
    else hasNL3Go 0 cs

/-! ## Supporting lemmas -/

lemma firstBodyValue_none (parts : List BodyPart) (bvs : List (Str × Str))
    (h : ∀ p ∈ parts, lookupBV bvs p.PartID = none) :
    firstBodyValue parts bvs = none := by
  induction parts with
  | nil => rfl
  | cons p ps ih =>
    have hp := h p (List.mem_cons_self _ _)
    rw [firstBodyValue, hp]
    exact ih (fun q hq => h q (List.mem_cons_of_mem _ hq))

lemma scanWindow_eq_take (k n : Nat) :
    ((List.range n).filter (fun i => n ≤ i + k)).reverse =
      (List.range n).reverse.take k := by
  induction n generalizing k with
  | zero => simp
  | succ n ih =>
    rw [List.range_succ, List.filter_append, List.reverse_append]
    cases k with
    | zero =>
      have h1 : (List.filter (fun i => decide (n + 1 ≤ i + 0)) [n]) = [] := by
        simp
      have h2 : (List.filter (fun i => decide (n + 1 ≤ i + 0)) (List.range n)) = [] := by
        refine List.filter_eq_nil_iff.mpr (fun a ha => ?_)
        have := List.mem_range.mp ha
        simp only [decide_eq_true_eq]
        omega
      rw [h1, h2]
      simp
    | succ k =>
      have h1 : (List.filter (fun i => decide (n + 1 ≤ i + (k + 1))) [n]) = [n] := by
        simp
      have h2 : (List.filter (fun i => decide (n + 1 ≤ i + (k + 1))) (List.range n)) =
          (List.filter (fun i => decide (n ≤ i + k)) (List.range n)) := by
        refine List.filter_congr (fun a _ => ?_)
        simp only [decide_eq_decide]
        omega
      rw [h1, h2]
      simp [ih k]

lemma sigScanIdxs_eq_take (n : Nat) :
    sigScanIdxs n = (List.range n).reverse.take 5 := by
  rw [sigScanIdxs, scanWindow_eq_take]

/-! ## Claims -/

/-- C1 (counterexample): the full cleaning pipeline is *not* idempotent.
The body consists of an attribution line preceded by two spaces: the first
pass only trims the leading spaces (the anchored attribution pattern does not
match a line starting with spaces), which exposes an attribution line that
the second pass truncates away entirely.  The body contains no `<`, so the
external markup conversions (instantiated with `id` here) are never invoked. -/
theorem C1_counterexample :
    ((("  On a wrote:".data : Str).contains '<') = false) ∧
    CleanBody id id (CleanBody id id ("  On a wrote:".data) ⟨true, false⟩) ⟨true, false⟩ ≠
      CleanBody id id ("  On a wrote:".data) ⟨true, false⟩ := by
  constructor
  · decide
  · decide

/-- C1 (amended): the pipeline is idempotent when the configuration disables
both quote and signature stripping and the body is not detected as markup
(then cleaning is the identity); with either stripping pass enabled, or on
markup bodies, idempotence fails (see the counterexample). -/
theorem C1_amended_idempotent (h1 h2 : Str → Str) (body : Str) (opts : ExportOptions)
    (hq : opts.StripQuotes = false) (hs : opts.StripSignatures = false)
    (hm : (body.contains '<' && body.contains '>') = false) :
    CleanBody h1 h2 (CleanBody h1 h2 body opts) opts = CleanBody h1 h2 body opts := by
  have hid : CleanBody h1 h2 body opts = body := by
    simp only [CleanBody, hq, hs, hm, Bool.false_eq_true, if_false]
  rw [hid]
  exact hid

/-- C1 (witness for the amended theorem). -/
theorem C1_amended_witness :
    CleanBody id id (CleanBody id id ("hi there".data) ⟨false, false⟩) ⟨false, false⟩ =
      CleanBody id id ("hi there".data) ⟨false, false⟩ :=
  C1_amended_idempotent id id ("hi there".data) ⟨false, false⟩ rfl rfl (by decide)

/-- C2: the conversations returned by `GroupEmailsBySubject` appear in the
order in which each distinct normalized-subject key was first encountered in
the input; in particular subjects A, B, A produce conversations in order
A, B. -/
theorem C2_first_seen_order :
    (∀ emails : List Email,
      (GroupEmailsBySubject emails).map ThreadItem.NormalizedSubject =
        firstSeenKeyOrder emails) ∧
    (GroupEmailsBySubject demoABA).map ThreadItem.NormalizedSubject =
      ["a".data, "b".data] := by
  constructor
  · intro emails
    rw [GroupEmailsBySubject, List.map_map]
    show List.map id (groupOrder emails) = firstSeenKeyOrder emails
    rw [List.map_id]
    rfl
  · decide

/-- C5: `StripQuotes` applies the four truncation patterns in the fixed
order attribution, forwarded-message, original-message, Outlook header —
each seeing the text already truncated by the previous steps, with no
restart — then removes the `>`-quoted lines and collapses the newline runs;
and the concrete attribution example from the spec yields "Body text". -/
theorem C5_stripquotes_order :
    (∀ body : Str,
      StripQuotes body =
        goTrim (collapseNL3 (removeQuotedLines
          (truncOutlook (truncOriginal (truncForwarded (truncAttribution body))))))) ∧
    StripQuotes
        ("Body text\nOn Jan 1, 2024 at 10:00 AM John <j@x.com> wrote:\n> quoted".data) =
      "Body text".data := by
  exact ⟨fun _ => rfl, by decide⟩

/-- C6 (counterexample): the phrase scan window is the last five *lines*,
not the last five *non-empty* lines.  With five blank lines after
"Sent from my iPhone", the claimed reading truncates to "Hello", but the
code's window contains only blank lines, so the body is returned
unchanged. -/
theorem C6_counterexample :
    StripSignature ("Hello\nSent from my iPhone\n\n\n\n\n".data) ≠
      stripSignatureClaimed ("Hello\nSent from my iPhone\n\n\n\n\n".data) := by
  decide

/-- C6 (amended): `StripSignature` truncates at the first `--` delimiter
line when present, and then (not "otherwise") scans the last five lines of
the resulting text backward — skipping blank lines inside that window, which
still consume window positions — truncating strictly before the first line
matching a signature phrase, else returning the text unchanged; the spec's
two concrete examples hold. -/
theorem C6_amended :
    (∀ body : Str, StripSignature body = stripSignatureDescribed body) ∧
    StripSignature ("Hello\n\n--\nJohn Doe".data) = "Hello".data ∧
    StripSignature ("Hello\n\nSent from my iPhone".data) = "Hello".data := by
  refine ⟨fun body => ?_, by decide, by decide⟩
  rw [StripSignature, stripSignatureDescribed, sigScanIdxs_eq_take]
  rfl

/-- C7 (counterexample): a `li` element gets a newline on entry but *not*
after its children — the claim predicted a trailing newline too. -/
theorem C7_counterexample :
    extractText (.elem ("li".data) (.cons (.text ("a".data)) .nil)) = "\na".data ∧
    extractText (.elem ("li".data) (.cons (.text ("a".data)) .nil)) ≠ "\na\n".data := by
  constructor
  · decide
  · decide

/-- C7 (amended): the extractor appends a newline both on entry and after
the children only for `p`, `div`, `h1`-`h6`; for `li` and `tr` the newline is
appended on entry only, for `ul`, `ol`, `table` after the children only, a
`br` yields exactly one newline on entry, and `script`/`style`/`head`
subtrees produce nothing. -/
theorem C7_amended (tag : Str) (kids : HForest) :
    (tag ∈ bothNLTags →
      extractText (.elem tag kids) = '\n' :: extractForest kids ++ ['\n']) ∧
    (tag ∈ entryOnlyNLTags →
      extractText (.elem tag kids) = '\n' :: extractForest kids) ∧
    (tag ∈ exitOnlyNLTags →
      extractText (.elem tag kids) = extractForest kids ++ ['\n']) ∧
    (tag = "br".data →
      extractText (.elem tag kids) = '\n' :: extractForest kids) ∧
    (tag ∈ skipTags → extractText (.elem tag kids) = []) := by
  refine ⟨?_, ?_, ?_, ?_, ?_⟩ <;> intro h
  · fin_cases h <;> rfl
  · fin_cases h <;>
      · show '\n' :: (extractForest kids ++ []) = '\n' :: extractForest kids
        rw [List.append_nil]
  · fin_cases h <;> rfl
  · subst h
    show '\n' :: (extractForest kids ++ []) = '\n' :: extractForest kids
    rw [List.append_nil]
  · fin_cases h <;> rfl

/-- C7 (witness for the amended theorem): a `p` element. -/
theorem C7_amended_witness :
    ("p".data ∈ bothNLTags) ∧
    extractText (.elem ("p".data) (.cons (.text ("x".data)) .nil)) =
      '\n' :: extractForest (.cons (.text ("x".data)) .nil) ++ ['\n'] :=
  ⟨by decide, (C7_amended ("p".data) (.cons (.text ("x".data)) .nil)).1 (by decide)⟩

/-- C9 (counterexample): with no listed body parts at all and a non-empty
preview, `GetBodyText` returns the preview, not the empty string. -/
theorem C9_counterexample :
    previewOnlyEmail.TextBody = [] ∧ previewOnlyEmail.HTMLBody = [] ∧
    GetBodyText previewOnlyEmail = "p".data ∧
    GetBodyText previewOnlyEmail ≠ ([] : Str) := by
  refine ⟨rfl, rfl, by decide, by decide⟩

/-- C9 (amended): when no listed body part (text or HTML) has a fetched body
value, `GetBodyText` falls back to the `Preview` field — so it returns the
empty string only when the preview is empty. -/
theorem C9_amended_preview_fallback (e : Email)
    (ht : ∀ p ∈ e.TextBody, lookupBV e.BodyValues p.PartID = none)
    (hh : ∀ p ∈ e.HTMLBody, lookupBV e.BodyValues p.PartID = none) :
    GetBodyText e = e.Preview := by
  rw [GetBodyText, firstBodyValue_none e.TextBody e.BodyValues ht,
    firstBodyValue_none e.HTMLBody e.BodyValues hh]

/-- C9 (witness): an email whose listed parts have no fetched values. -/
theorem C9_amended_witness :
    (∀ p ∈ unfetchedEmail.TextBody,
      lookupBV unfetchedEmail.BodyValues p.PartID = none) ∧
    GetBodyText unfetchedEmail = unfetchedEmail.Preview :=
  ⟨by decide, C9_amended_preview_fallback unfetchedEmail (by decide) (by decide)⟩

/-- C3: within every conversation the members are sorted ascending by parsed
received timestamp (a failed parse counting as the lowest possible value),
and the display fields Subject, From, Date, Preview are those of the
chronologically last member after sorting. -/
theorem C3_sorted_members_newest_display (emails : List Email) (item : ThreadItem)
    (hmem : item ∈ GroupEmailsBySubject emails) :
    item.Emails.Sorted byDate ∧
    item.Subject = (item.Emails.getLastD emptyEmail).Subject ∧
    item.From = fromOf (item.Emails.getLastD emptyEmail) ∧
    item.Date = dateKeyOf (item.Emails.getLastD emptyEmail) ∧
    item.Preview = (item.Emails.getLastD emptyEmail).Preview ∧
    (∀ e ∈ item.Emails, parseRFC3339 e.ReceivedAt = none → dateKeyOf e = 0) := by
  rw [GroupEmailsBySubject] at hmem
  obtain ⟨key, hkey, rfl⟩ := List.mem_map.mp hmem
  refine ⟨List.sorted_insertionSort byDate _, rfl, rfl, rfl, rfl, ?_⟩
  intro e _ hp
  simp [dateKeyOf, hp]

/-- C3 (witness): a two-email conversation given newest-first. -/
theorem C3_witness :
    (demoItem ∈ GroupEmailsBySubject demoThread) ∧
    (demoItem.Emails.Sorted byDate ∧
     demoItem.Subject = (demoItem.Emails.getLastD emptyEmail).Subject ∧
     demoItem.From = fromOf (demoItem.Emails.getLastD emptyEmail) ∧
     demoItem.Date = dateKeyOf (demoItem.Emails.getLastD emptyEmail) ∧
     demoItem.Preview = (demoItem.Emails.getLastD emptyEmail).Preview ∧
     (∀ e ∈ demoItem.Emails, parseRFC3339 e.ReceivedAt = none → dateKeyOf e = 0)) :=
  ⟨by decide, C3_sorted_members_newest_display demoThread demoItem (by decide)⟩

/-! Lemmas about the grouping fold (`order`) and the group partition. -/

lemma groupFold_mono (emails : List Email) (acc : List Str) (k : Str)
    (hk : k ∈ acc) :
    k ∈ emails.foldl
      (fun a e => if normKey e ∈ a then a else a ++ [normKey e]) acc := by
  induction emails generalizing acc with
  | nil => exact hk
  | cons e es ih =>
    rw [List.foldl_cons]
    by_cases h : normKey e ∈ acc
    · rw [if_pos h]; exact ih acc hk
    · rw [if_neg h]; exact ih _ (List.mem_append_left _ hk)

lemma groupFold_complete (emails : List Email) (acc : List Str) :
    ∀ e ∈ emails, normKey e ∈ emails.foldl
      (fun a e => if normKey e ∈ a then a else a ++ [normKey e]) acc := by
  induction emails generalizing acc with
  | nil => intro e he; cases he
  | cons e es ih =>
    intro e2 he2
    rw [List.foldl_cons]
    rcases List.mem_cons.mp he2 with rfl | h2
    · by_cases h : normKey e2 ∈ acc
      · rw [if_pos h]; exact groupFold_mono es acc _ h
      · rw [if_neg h]
        exact groupFold_mono es _ _ (List.mem_append_right _ (List.mem_singleton.mpr rfl))
    · by_cases h : normKey e ∈ acc
      · rw [if_pos h]; exact ih acc e2 h2
      · rw [if_neg h]; exact ih _ e2 h2

lemma groupFold_nodup (emails : List Email) (acc : List Str) (hacc : acc.Nodup) :
    (emails.foldl
      (fun a e => if normKey e ∈ a then a else a ++ [normKey e]) acc).Nodup := by
  induction emails generalizing acc with
  | nil => exact hacc
  | cons e es ih =>
    rw [List.foldl_cons]
    by_cases h : normKey e ∈ acc
    · rw [if_pos h]; exact ih acc hacc
    · rw [if_neg h]
      refine ih _ ?_
      simp [List.nodup_append, hacc, h]

lemma groupFold_sourced (emails : List Email) (acc : List Str) :
    ∀ k ∈ emails.foldl
      (fun a e => if normKey e ∈ a then a else a ++ [normKey e]) acc,
      k ∈ acc ∨ ∃ e ∈ emails, normKey e = k := by
  induction emails generalizing acc with
  | nil => intro k hk; exact Or.inl hk
  | cons e es ih =>
    intro k hk
    rw [List.foldl_cons] at hk
    by_cases h : normKey e ∈ acc
    · rw [if_pos h] at hk
      rcases ih acc k hk with h2 | ⟨e2, he2, hk2⟩
      · exact Or.inl h2
      · exact Or.inr ⟨e2, List.mem_cons_of_mem _ he2, hk2⟩
    · rw [if_neg h] at hk
      rcases ih _ k hk with h2 | ⟨e2, he2, hk2⟩
      · rcases List.mem_append.mp h2 with h3 | h3
        · exact Or.inl h3
        · exact Or.inr ⟨e, List.mem_cons_self _ _, (List.mem_singleton.mp h3).symm⟩
      · exact Or.inr ⟨e2, List.mem_cons_of_mem _ he2, hk2⟩

lemma groupOrder_nodup (emails : List Email) : (groupOrder emails).Nodup :=
  groupFold_nodup emails [] List.nodup_nil

lemma groupOrder_complete (emails : List Email) :
    ∀ e ∈ emails, normKey e ∈ groupOrder emails :=
  groupFold_complete emails []

lemma groupOrder_sourced (emails : List Email) :
    ∀ k ∈ groupOrder emails, ∃ e ∈ emails, normKey e = k := by
  intro k hk
  rcases groupFold_sourced emails [] k hk with h | h
  · cases h
  · exact h

lemma count_groupOf (emails : List Email) (k : Str) (x : Email) :
    (groupOf emails k).count x = if normKey x = k then emails.count x else 0 := by
  by_cases h : normKey x = k
  · rw [if_pos h, groupOf, List.count_filter]
    simp [h]
  · rw [if_neg h, List.count_eq_zero]
    intro hx
    have h2 := (List.mem_filter.mp hx).2
    simp only [decide_eq_true_eq] at h2
    exact h h2

lemma count_flatMap_groups_zero (keys : List Str) (emails : List Email) (x : Email)
    (hx : normKey x ∉ keys) :
    (keys.flatMap (fun k => groupOf emails k)).count x = 0 := by
  induction keys with
  | nil => rfl
  | cons k ks ih =>
    rw [List.flatMap_cons, List.count_append, count_groupOf,
      if_neg (fun h => hx (List.mem_cons.mpr (Or.inl h))),
      ih (fun h => hx (List.mem_cons.mpr (Or.inr h)))]

lemma count_flatMap_groups (keys : List Str) (emails : List Email) (x : Email)
    (hnd : keys.Nodup) (hx : normKey x ∈ keys) :
    (keys.flatMap (fun k => groupOf emails k)).count x = emails.count x := by
  induction keys with
  | nil => cases hx
  | cons k ks ih =>
    rw [List.flatMap_cons, List.count_append, count_groupOf]
    rcases List.mem_cons.mp hx with h | h
    · rw [if_pos h]
      have hnotin : normKey x ∉ ks := by
        rw [h]; exact (List.nodup_cons.mp hnd).1
      rw [count_flatMap_groups_zero ks emails x hnotin, Nat.add_zero]
    · have hne : normKey x ≠ k := by
        intro he; rw [he] at h; exact (List.nodup_cons.mp hnd).1 h
      rw [if_neg hne, ih (List.nodup_cons.mp hnd).2 h, Nat.zero_add]

lemma flatMap_groups_perm (emails : List Email) :
    ((groupOrder emails).flatMap (fun k => groupOf emails k)).Perm emails := by
  rw [List.perm_iff_count]
  intro x
  by_cases hx : normKey x ∈ groupOrder emails
  · exact count_flatMap_groups _ _ _ (groupOrder_nodup emails) hx
  · rw [count_flatMap_groups_zero _ _ _ hx]
    have hxe : x ∉ emails := fun he => hx (groupOrder_complete emails x he)
    exact (List.count_eq_zero.mpr hxe).symm

lemma flatMap_sort_perm (keys : List Str) (f : Str → List Email) :
    (keys.flatMap (fun k => List.insertionSort byDate (f k))).Perm
      (keys.flatMap f) := by
  induction keys with
  | nil => exact List.Perm.refl _
  | cons k ks ih =>
    rw [List.flatMap_cons, List.flatMap_cons]
    exact (List.perm_insertionSort byDate (f k)).append ih

/-- C10: the conversations partition the input — every input message occurs
in exactly one member list (counting multiplicity: the concatenation of the
member lists is a permutation of the input), every conversation is
non-empty, `EmailCount` is the member-list length, and the counts sum to the
input length. -/
theorem C10_partition (emails : List Email) :
    ((GroupEmailsBySubject emails).flatMap ThreadItem.Emails).Perm emails ∧
    (∀ item ∈ GroupEmailsBySubject emails,
      item.Emails ≠ [] ∧ item.EmailCount = item.Emails.length) ∧
    ((GroupEmailsBySubject emails).map ThreadItem.EmailCount).sum = emails.length := by
  have hbind : (GroupEmailsBySubject emails).flatMap ThreadItem.Emails =
      (groupOrder emails).flatMap
        (fun k => List.insertionSort byDate (groupOf emails k)) := by
    rw [GroupEmailsBySubject, List.flatMap_map]
    rfl
  have hperm : ((GroupEmailsBySubject emails).flatMap ThreadItem.Emails).Perm emails := by
    rw [hbind]
    exact (flatMap_sort_perm _ _).trans (flatMap_groups_perm emails)
  have hcount : ∀ item ∈ GroupEmailsBySubject emails,
      item.Emails ≠ [] ∧ item.EmailCount = item.Emails.length := by
    intro item hmem
    rw [GroupEmailsBySubject] at hmem
    obtain ⟨key, hkey, rfl⟩ := List.mem_map.mp hmem
    refine ⟨?_, rfl⟩
    intro hempty
    obtain ⟨e, he, hek⟩ := groupOrder_sourced emails key hkey
    have hmem2 : e ∈ groupOf emails key :=
      List.mem_filter.mpr ⟨he, by simp [hek]⟩
    have hp := List.perm_insertionSort byDate (groupOf emails key)
    have hnil : List.insertionSort byDate (groupOf emails key) = [] := hempty
    rw [hnil] at hp
    rw [hp.symm.eq_nil] at hmem2
    cases hmem2
  refine ⟨hperm, hcount, ?_⟩
  have hlen := hperm.length_eq
  rw [List.length_flatMap] at hlen
  rw [← hlen]
  refine congrArg List.sum ?_
  refine List.map_congr_left ?_
  intro item hmem
  exact (hcount item hmem).2

/-- C10 (witness): the partition property at the concrete A, B, A input. -/
theorem C10_witness :
    ((GroupEmailsBySubject demoABA).flatMap ThreadItem.Emails).Perm demoABA :=
  (C10_partition demoABA).1

/-! Character-level lemmas for the subject normalizer. -/

lemma regexSpace_isGoSpace (c : Char) (h : regexSpace c = true) :
    isGoSpace c = true := by
  simp only [regexSpace, Bool.or_eq_true, beq_iff_eq] at h
  rcases h with ((((rfl | rfl) | rfl) | rfl) | rfl) <;> decide

lemma isGoSpace_letter (n : Nat) (h1 : 65 ≤ n) (h2 : n ≤ 90) :
    isGoSpace (Char.ofNat (n + 32)) = false := by
  interval_cases n <;> decide

lemma regexSpace_letter (n : Nat) (h1 : 65 ≤ n) (h2 : n ≤ 90) :
    regexSpace (Char.ofNat (n + 32)) = false := by
  interval_cases n <;> decide

lemma asciiLower_letter_fix (n : Nat) (h1 : 65 ≤ n) (h2 : n ≤ 90) :
    asciiLower (Char.ofNat (n + 32)) = Char.ofNat (n + 32) := by
  interval_cases n <;> decide

lemma isGoSpace_asciiLower_false (c : Char) (h : isGoSpace c = false) :
    isGoSpace (asciiLower c) = false := by
  rw [asciiLower]
  by_cases hc : ('A' ≤ c && c ≤ 'Z') = true
  · rw [if_pos hc]
    simp only [Bool.and_eq_true, decide_eq_true_eq] at hc
    exact isGoSpace_letter c.toNat hc.1 hc.2
  · rw [if_neg hc]
    exact h

lemma regexSpace_asciiLower (c : Char) :
    regexSpace (asciiLower c) = regexSpace c := by
  rw [asciiLower]
  by_cases hc : ('A' ≤ c && c ≤ 'Z') = true
  · rw [if_pos hc]
    simp only [Bool.and_eq_true, decide_eq_true_eq] at hc
    rw [regexSpace_letter c.toNat hc.1 hc.2]
    have : regexSpace c = false := by
      simp only [regexSpace, Bool.or_eq_false_iff, beq_eq_false_iff_ne]
      have h1 := hc.1
      have h2 := hc.2
      refine ⟨⟨⟨⟨?_, ?_⟩, ?_⟩, ?_⟩, ?_⟩ <;>
        · intro he
          subst he
          exact absurd h1 (by decide)
    rw [this]
  · rw [if_neg hc]

lemma asciiLower_idem (c : Char) :
    asciiLower (asciiLower c) = asciiLower c := by
  by_cases hc : ('A' ≤ c && c ≤ 'Z') = true
  · have h1 : asciiLower c = Char.ofNat (c.toNat + 32) := by
      rw [asciiLower, if_pos hc]
    rw [h1]
    simp only [Bool.and_eq_true, decide_eq_true_eq] at hc
    exact asciiLower_letter_fix c.toNat hc.1 hc.2
  · have h1 : asciiLower c = c := by
      rw [asciiLower, if_neg hc]
    rw [h1]
    exact h1

/-! List-level trimming lemmas. -/

lemma head?_dropWhile_not (p : Char → Bool) (l : Str) :
    ∀ c, (l.dropWhile p).head? = some c → p c = false := by
  induction l with
  | nil => intro c h; cases h
  | cons a t ih =>
    intro c h
    rw [List.dropWhile_cons] at h
    by_cases ha : p a = true
    · rw [if_pos ha] at h
      exact ih c h
    · rw [if_neg ha] at h
      cases h
      exact Bool.eq_false_iff.mpr ha

lemma dropWhile_eq_self_of_head (p : Char → Bool) (l : Str)
    (h : ∀ c, l.head? = some c → p c = false) : l.dropWhile p = l := by
  cases l with
  | nil => rfl
  | cons a t =>
    rw [List.dropWhile_cons, if_neg]
    rw [h a rfl]
    simp

lemma dropTrailing_eq_self (p : Char → Bool) (l : Str)
    (h : ∀ c, l.getLast? = some c → p c = false) : dropTrailing p l = l := by
  rw [dropTrailing, dropWhile_eq_self_of_head, List.reverse_reverse]
  intro c hc
  rw [List.head?_reverse] at hc
  exact h c hc

lemma getLast?_dropTrailing (p : Char → Bool) (l : Str) :
    ∀ c, (dropTrailing p l).getLast? = some c → p c = false := by
  intro c hc
  rw [dropTrailing, List.getLast?_reverse] at hc
  exact head?_dropWhile_not p l.reverse c hc

lemma dropTrailing_isPre (p : Char → Bool) (l : Str) :
    dropTrailing p l <+: l := by
  have h := List.dropWhile_suffix (l := l.reverse) (p := p)
  obtain ⟨u, hu⟩ := h
  refine ⟨u.reverse, ?_⟩
  rw [dropTrailing]
  have := congrArg List.reverse hu
  rw [List.reverse_append, List.reverse_reverse] at this
  exact this

lemma head?_of_isPre (t r : Str) (h : t <+: r) (hne : t ≠ []) :
    t.head? = r.head? := by
  obtain ⟨u, rfl⟩ := h
  cases t with
  | nil => exact absurd rfl hne
  | cons a t2 => rfl

lemma startsWithLower_of_isPre (w : Str) :
    ∀ t r : Str, t <+: r → startsWithLower w t = true →
      startsWithLower w r = true := by
  induction w with
  | nil => intro t r _ _; rfl
  | cons w0 w1 ih =>
    intro t r hpre hsw
    cases t with
    | nil => cases hsw
    | cons c cs =>
      obtain ⟨u, rfl⟩ := hpre
      rw [startsWithLower, Bool.and_eq_true] at hsw
      rw [List.cons_append, startsWithLower, Bool.and_eq_true]
      exact ⟨hsw.1, ih cs (cs ++ u) ⟨u, rfl⟩ hsw.2⟩

lemma mem_of_getLast? (l : Str) (c : Char) (h : l.getLast? = some c) : c ∈ l := by
  rw [← List.head?_reverse] at h
  have := List.mem_of_mem_head? h
  exact List.mem_reverse.mp this

lemma mem_of_head? (l : Str) (c : Char) (h : l.head? = some c) : c ∈ l :=
  List.mem_of_mem_head? h

lemma goTrim_eq_self (l : Str)
    (hhead : ∀ c, l.head? = some c → isGoSpace c = false)
    (hlast : ∀ c, l.getLast? = some c → isGoSpace c = false) :
    goTrim l = l := by
  rw [goTrim, dropWhile_eq_self_of_head _ _ hhead, dropTrailing_eq_self _ _ hlast]

/-! Lemmas about the mark-stripping loop. -/

lemma startsWithLower_length (w : Str) :
    ∀ s : Str, startsWithLower w s = true → w.length ≤ s.length := by
  induction w with
  | nil => intro s _; exact Nat.zero_le _
  | cons w0 w1 ih =>
    intro s h
    cases s with
    | nil => cases h
    | cons c cs =>
      rw [startsWithLower, Bool.and_eq_true] at h
      have := ih cs h.2
      simpa using Nat.succ_le_succ this

lemma tryStripMark_none_iff (s : Str) :
    tryStripMark s = none ↔
      startsWithLower ("re:".data) s = false ∧
      startsWithLower ("fwd:".data) s = false ∧
      startsWithLower ("fw:".data) s = false := by
  rw [tryStripMark]
  constructor
  · intro h
    by_cases h1 : startsWithLower ("re:".data) s = true
    · rw [if_pos h1] at h; cases h
    · rw [if_neg h1] at h
      by_cases h2 : startsWithLower ("fwd:".data) s = true
      · rw [if_pos h2] at h; cases h
      · rw [if_neg h2] at h
        by_cases h3 : startsWithLower ("fw:".data) s = true
        · rw [if_pos h3] at h; cases h
        · exact ⟨Bool.eq_false_iff.mpr h1, Bool.eq_false_iff.mpr h2,
            Bool.eq_false_iff.mpr h3⟩
  · intro ⟨h1, h2, h3⟩
    rw [if_neg (by rw [h1]; simp), if_neg (by rw [h2]; simp),
      if_neg (by rw [h3]; simp)]

lemma tryStripMark_some (s s2 : Str) (h : tryStripMark s = some s2) :
    (s2 = (s.drop 3).dropWhile regexSpace ∧ 3 ≤ s.length) ∨
    (s2 = (s.drop 4).dropWhile regexSpace ∧ 4 ≤ s.length) := by
  rw [tryStripMark] at h
  by_cases h1 : startsWithLower ("re:".data) s = true
  · rw [if_pos h1] at h
    cases h
    exact Or.inl ⟨rfl, startsWithLower_length _ s h1⟩
  · rw [if_neg h1] at h
    by_cases h2 : startsWithLower ("fwd:".data) s = true
    · rw [if_pos h2] at h
      cases h
      exact Or.inr ⟨rfl, startsWithLower_length _ s h2⟩
    · rw [if_neg h2] at h
      by_cases h3 : startsWithLower ("fw:".data) s = true
      · rw [if_pos h3] at h
        cases h
        exact Or.inl ⟨rfl, startsWithLower_length _ s h3⟩
      · rw [if_neg h3] at h
        cases h

lemma tryStripMark_length (s s2 : Str) (h : tryStripMark s = some s2) :
    s2.length + 3 ≤ s.length := by
  rcases tryStripMark_some s s2 h with ⟨rfl, hl⟩ | ⟨rfl, hl⟩
  · have hd := (List.dropWhile_sublist (l := s.drop 3) regexSpace).length_le
    rw [List.length_drop] at hd
    omega
  · have hd := (List.dropWhile_sublist (l := s.drop 4) regexSpace).length_le
    rw [List.length_drop] at hd
    omega

lemma tryStripMark_subset (s s2 : Str) (h : tryStripMark s = some s2) :
    ∀ c ∈ s2, c ∈ s := by
  rcases tryStripMark_some s s2 h with ⟨rfl, _⟩ | ⟨rfl, _⟩ <;>
    · intro c hc
      exact (List.drop_sublist _ _).subset
        ((List.dropWhile_sublist _).subset hc)

lemma tryStripMark_head (s s2 : Str) (h : tryStripMark s = some s2) :
    ∀ c, s2.head? = some c → regexSpace c = false := by
  rcases tryStripMark_some s s2 h with ⟨rfl, _⟩ | ⟨rfl, _⟩ <;>
    exact fun c hc => head?_dropWhile_not _ _ c hc

lemma stripMarksGo_fix (fuel : Nat) :
    ∀ s : Str, s.length ≤ fuel → tryStripMark (stripMarksGo fuel s) = none := by
  induction fuel with
  | zero =>
    intro s hs
    have : s = [] := List.length_eq_zero.mp (Nat.le_zero.mp hs)
    subst this
    rfl
  | succ fuel ih =>
    intro s hs
    rw [stripMarksGo]
    cases h : tryStripMark s with
    | none => exact h
    | some s2 =>
      have := tryStripMark_length s s2 h
      exact ih s2 (by omega)

lemma stripMarksGo_subset (fuel : Nat) :
    ∀ s c, c ∈ stripMarksGo fuel s → c ∈ s := by
  induction fuel with
  | zero => intro s c hc; exact hc
  | succ fuel ih =>
    intro s c hc
    rw [stripMarksGo] at hc
    cases h : tryStripMark s with
    | none => rw [h] at hc; exact hc
    | some s2 =>
      rw [h] at hc
      exact tryStripMark_subset s s2 h c (ih s2 c hc)

lemma stripMarksGo_cases (fuel : Nat) :
    ∀ s : Str, stripMarksGo fuel s = s ∨
      (∀ c, (stripMarksGo fuel s).head? = some c → regexSpace c = false) := by
  induction fuel with
  | zero => intro s; exact Or.inl rfl
  | succ fuel ih =>
    intro s
    rw [stripMarksGo]
    cases h : tryStripMark s with
    | none => exact Or.inl rfl
    | some s2 =>
      rcases ih s2 with h2 | h2
      · refine Or.inr ?_
        intro c hc
        have hc2 : (stripMarksGo fuel s2).head? = some c := hc
        rw [h2] at hc2
        exact tryStripMark_head s s2 h c hc2
      · refine Or.inr ?_
        intro c hc
        exact h2 c hc

lemma stripMarks_fix (s : Str) : tryStripMark (stripMarks s) = none :=
  stripMarksGo_fix s.length s (Nat.le_refl _)

lemma stripMarksGo_of_none (fuel : Nat) (s : Str) (h : tryStripMark s = none) :
    stripMarksGo fuel s = s := by
  cases fuel with
  | zero => rfl
  | succ fuel => rw [stripMarksGo, h]

/-! Lemmas about whitespace collapsing and lower-casing. -/

lemma lowerStr_cons (c : Char) (cs : Str) :
    lowerStr (c :: cs) = asciiLower c :: lowerStr cs := rfl

lemma wsGo_sp_true (c : Char) (cs : Str) (h : regexSpace c = true) :
    collapseWSGo true (c :: cs) = collapseWSGo true cs := by
  show (if regexSpace c = true then collapseWSGo true cs
    else c :: collapseWSGo false cs) = collapseWSGo true cs
  rw [if_pos h]

lemma wsGo_sp_false (c : Char) (cs : Str) (h : regexSpace c = true) :
    collapseWSGo false (c :: cs) = ' ' :: collapseWSGo true cs := by
  show (if regexSpace c = true then ' ' :: collapseWSGo true cs
    else c :: collapseWSGo false cs) = ' ' :: collapseWSGo true cs
  rw [if_pos h]

lemma wsGo_nosp (b : Bool) (c : Char) (cs : Str) (h : regexSpace c = false) :
    collapseWSGo b (c :: cs) = c :: collapseWSGo false cs := by
  cases b with
  | true =>
    show (if regexSpace c = true then collapseWSGo true cs
      else c :: collapseWSGo false cs) = c :: collapseWSGo false cs
    rw [h]
    simp
  | false =>
    show (if regexSpace c = true then ' ' :: collapseWSGo true cs
      else c :: collapseWSGo false cs) = c :: collapseWSGo false cs
    rw [h]
    simp

lemma collapseWSGo_idem (x : Str) :
    ∀ b : Bool, collapseWSGo b (collapseWSGo b x) = collapseWSGo b x := by
  induction x with
  | nil => intro b; rfl
  | cons c cs ih =>
    intro b
    by_cases hc : regexSpace c = true
    · cases b with
      | true =>
        rw [wsGo_sp_true c cs hc]
        exact ih true
      | false =>
        rw [wsGo_sp_false c cs hc, wsGo_sp_false ' ' _ (by decide)]
        rw [ih true]
    · have hc2 := Bool.eq_false_iff.mpr hc
      rw [wsGo_nosp b c cs hc2, wsGo_nosp b c _ hc2, ih false]

lemma collapseWSGo_lower (x : Str) :
    ∀ b : Bool, collapseWSGo b (lowerStr x) = lowerStr (collapseWSGo b x) := by
  induction x with
  | nil => intro b; rfl
  | cons c cs ih =>
    intro b
    rw [lowerStr_cons]
    by_cases hc : regexSpace c = true
    · have hc2 : regexSpace (asciiLower c) = true := by
        rw [regexSpace_asciiLower]; exact hc
      cases b with
      | true =>
        rw [wsGo_sp_true _ _ hc2, wsGo_sp_true _ _ hc, ih true]
      | false =>
        rw [wsGo_sp_false _ _ hc2, wsGo_sp_false _ _ hc, lowerStr_cons,
          show asciiLower ' ' = ' ' from rfl, ih true]
    · have hc1 := Bool.eq_false_iff.mpr hc
      have hc2 : regexSpace (asciiLower c) = false := by
        rw [regexSpace_asciiLower]; exact hc1
      rw [wsGo_nosp b _ _ hc2, wsGo_nosp b _ _ hc1, lowerStr_cons, ih false]

lemma lowerStr_idem (x : Str) : lowerStr (lowerStr x) = lowerStr x := by
  show List.map asciiLower (List.map asciiLower x) = List.map asciiLower x
  rw [List.map_map]
  exact List.map_congr_left (fun c _ => asciiLower_idem c)

lemma startsWithLower_lowerStr (w : Str) :
    ∀ x : Str, startsWithLower w (lowerStr x) = startsWithLower w x := by
  induction w with
  | nil => intro x; rfl
  | cons w0 w1 ih =>
    intro x
    cases x with
    | nil => rfl
    | cons c cs =>
      rw [lowerStr_cons, startsWithLower, startsWithLower, ih cs, asciiLower_idem]

lemma collapseWSGo_true_nil (cs : Str) (h : collapseWSGo true cs = []) :
    ∀ c ∈ cs, regexSpace c = true := by
  induction cs with
  | nil => intro c hc; cases hc
  | cons a t ih =>
    intro c hc
    by_cases ha : regexSpace a = true
    · rw [wsGo_sp_true a t ha] at h
      rcases List.mem_cons.mp hc with rfl | hc2
      · exact ha
      · exact ih h c hc2
    · rw [wsGo_nosp true a t (Bool.eq_false_iff.mpr ha)] at h
      cases h

lemma collapseWSGo_getLast (x : Str) :
    ∀ b : Bool,
      (∀ c, x.getLast? = some c → regexSpace c = false) →
      (∀ c ∈ x, isGoSpace c = true → regexSpace c = true) →
      ∀ c, (collapseWSGo b x).getLast? = some c → isGoSpace c = false := by
  induction x with
  | nil => intro b _ _ c hc; cases hc
  | cons a t ih =>
    intro b hlast hchar c hc
    cases t with
    | nil =>
      have ha : regexSpace a = false := hlast a (by simp)
      rw [wsGo_nosp b a [] ha, show collapseWSGo false [] = [] from rfl] at hc
      simp only [List.getLast?_singleton, Option.some.injEq] at hc
      subst hc
      by_cases hgo : isGoSpace a = true
      · exact absurd (hchar a (by simp) hgo) (by rw [ha]; simp)
      · exact Bool.eq_false_iff.mpr hgo
    | cons d ds =>
      have hlast2 : ∀ c2, (d :: ds).getLast? = some c2 → regexSpace c2 = false := by
        intro c2 hc2
        exact hlast c2 (by rw [List.getLast?_cons_cons]; exact hc2)
      have hchar2 : ∀ c2 ∈ d :: ds, isGoSpace c2 = true → regexSpace c2 = true :=
        fun c2 h2 => hchar c2 (List.mem_cons_of_mem _ h2)
      by_cases ha : regexSpace a = true
      · cases b with
        | true =>
          rw [wsGo_sp_true a _ ha] at hc
          exact ih true hlast2 hchar2 c hc
        | false =>
          rw [wsGo_sp_false a _ ha] at hc
          cases he : collapseWSGo true (d :: ds) with
          | nil =>
            have hall := collapseWSGo_true_nil (d :: ds) he
            have hne : (d :: ds) ≠ [] := by simp
            have hl := List.getLast?_eq_getLast (d :: ds) hne
            have hmem := List.getLast_mem hne
            exact absurd (hall _ hmem) (by rw [hlast2 _ hl]; simp)
          | cons e es =>
            rw [he, List.getLast?_cons_cons, ← he] at hc
            exact ih true hlast2 hchar2 c hc
      · have ha2 := Bool.eq_false_iff.mpr ha
        rw [wsGo_nosp b a _ ha2] at hc
        cases he : collapseWSGo false (d :: ds) with
        | nil =>
          by_cases hd : regexSpace d = true
          · rw [wsGo_sp_false d ds hd] at he; cases he
          · rw [wsGo_nosp false d ds (Bool.eq_false_iff.mpr hd)] at he; cases he
        | cons e es =>
          rw [he, List.getLast?_cons_cons, ← he] at hc
          exact ih false hlast2 hchar2 c hc

lemma startsWithLower_collapseWS (t : Str) :
    ∀ w : Str, (∀ ch ∈ w, (ch == ' ') = false) →
      startsWithLower w (collapseWSGo false t) = true →
      startsWithLower w t = true := by
  induction t with
  | nil => intro w _ h; exact h
  | cons c cs ih =>
    intro w hw h
    cases w with
    | nil => rfl
    | cons w0 w1 =>
      by_cases hc : regexSpace c = true
      · rw [wsGo_sp_false c cs hc] at h
        rw [startsWithLower, Bool.and_eq_true] at h
        have h0 := hw w0 (by simp)
        have hne : w0 ≠ ' ' := by
          intro he
          rw [he] at h0
          simp at h0
        have hsp : (asciiLower ' ' == w0) = false := by
          rw [show asciiLower ' ' = ' ' from rfl]
          exact beq_eq_false_iff_ne.mpr (fun he => hne he.symm)
        rw [hsp] at h
        cases h.1
      · rw [wsGo_nosp false c cs (Bool.eq_false_iff.mpr hc)] at h
        rw [startsWithLower, Bool.and_eq_true] at h
        rw [startsWithLower, Bool.and_eq_true]
        exact ⟨h.1, ih w1 (fun ch hch => hw ch (List.mem_cons_of_mem _ hch)) h.2⟩

lemma stripMarks_of_none (s : Str) (h : tryStripMark s = none) :
    stripMarks s = s :=
  stripMarksGo_of_none s.length s h

lemma getLast?_lowerStr (u : Str) :
    (lowerStr u).getLast? = u.getLast?.map asciiLower := by
  rw [show lowerStr u = List.map asciiLower u from rfl, List.getLast?_map]

/-- C4 (amended, main part): `NormalizeSubject` is idempotent on subjects
that do not begin with a white-space character and whose white space all
lies in the regex class (tab, newline, form feed, carriage return, space) —
the prerequisites that keep `TrimSpace` from exposing a fresh
`Re:`/`Fwd:`/`Fw:` mark that the anchored stripping loop could not see. -/
theorem normalizeSubject_idem_of_clean (s : Str)
    (hws : ∀ c ∈ s, isGoSpace c = true → regexSpace c = true)
    (hhead : ∀ c, s.head? = some c → isGoSpace c = false) :
    NormalizeSubject (NormalizeSubject s) = NormalizeSubject s := by
  have hrfix : tryStripMark (stripMarks s) = none := stripMarks_fix s
  have hrsub : ∀ c ∈ stripMarks s, c ∈ s :=
    fun c hc => stripMarksGo_subset s.length s c hc
  have hrhead : ∀ c, (stripMarks s).head? = some c → isGoSpace c = false := by
    intro c hc
    rcases stripMarksGo_cases s.length s with he | hp
    · have hc2 : s.head? = some c := by
        rw [show stripMarks s = stripMarksGo s.length s from rfl, he] at hc
        exact hc
      exact hhead c hc2
    · have hrsp : regexSpace c = false := hp c hc
      by_cases hgo : isGoSpace c = true
      · have hmem : c ∈ stripMarks s := mem_of_head? _ c hc
        exact absurd (hws c (hrsub c hmem) hgo) (by rw [hrsp]; simp)
      · exact Bool.eq_false_iff.mpr hgo
  have hdw : (stripMarks s).dropWhile isGoSpace = stripMarks s :=
    dropWhile_eq_self_of_head _ _ hrhead
  have hgt : goTrim (stripMarks s) = dropTrailing isGoSpace (stripMarks s) := by
    rw [goTrim, hdw]
  have htpre : dropTrailing isGoSpace (stripMarks s) <+: stripMarks s :=
    dropTrailing_isPre _ _
  have htsub : ∀ c ∈ dropTrailing isGoSpace (stripMarks s), c ∈ s :=
    fun c hc => hrsub c (htpre.subset hc)
  have hthead : ∀ c, (dropTrailing isGoSpace (stripMarks s)).head? = some c →
      isGoSpace c = false := by
    intro c hc
    have hne : dropTrailing isGoSpace (stripMarks s) ≠ [] := by
      intro h0
      rw [h0] at hc
      cases hc
    rw [head?_of_isPre _ _ htpre hne] at hc
    exact hrhead c hc
  have htlast : ∀ c, (dropTrailing isGoSpace (stripMarks s)).getLast? = some c →
      isGoSpace c = false := getLast?_dropTrailing _ _
  have htlastr : ∀ c, (dropTrailing isGoSpace (stripMarks s)).getLast? = some c →
      regexSpace c = false := by
    intro c hc
    by_cases hr : regexSpace c = true
    · exact absurd (regexSpace_isGoSpace c hr) (by rw [htlast c hc]; simp)
    · exact Bool.eq_false_iff.mpr hr
  have htchar : ∀ c ∈ dropTrailing isGoSpace (stripMarks s),
      isGoSpace c = true → regexSpace c = true :=
    fun c hc hgo => hws c (htsub c hc) hgo
  have hrfix3 := (tryStripMark_none_iff _).mp hrfix
  have hnm : ∀ w : Str, startsWithLower w (stripMarks s) = false →
      startsWithLower w (dropTrailing isGoSpace (stripMarks s)) = false := by
    intro w hw0
    by_cases hsw : startsWithLower w (dropTrailing isGoSpace (stripMarks s)) = true
    · rw [startsWithLower_of_isPre w _ _ htpre hsw] at hw0
      cases hw0
    · exact Bool.eq_false_iff.mpr hsw
  have htfix : tryStripMark (dropTrailing isGoSpace (stripMarks s)) = none := by
    rw [tryStripMark_none_iff]
    exact ⟨hnm _ hrfix3.1, hnm _ hrfix3.2.1, hnm _ hrfix3.2.2⟩
  have huhead : ∀ c,
      (collapseWS (dropTrailing isGoSpace (stripMarks s))).head? = some c →
      isGoSpace c = false := by
    intro c hc
    cases htcase : dropTrailing isGoSpace (stripMarks s) with
    | nil =>
      rw [show collapseWS (dropTrailing isGoSpace (stripMarks s)) =
        collapseWSGo false (dropTrailing isGoSpace (stripMarks s)) from rfl,
        htcase] at hc
      cases hc
    | cons a ts =>
      have h1 : (dropTrailing isGoSpace (stripMarks s)).head? = some a := by
        rw [htcase]
        rfl
      have hasp : regexSpace a = false := by
        by_cases hr : regexSpace a = true
        · exact absurd (regexSpace_isGoSpace a hr) (by rw [hthead a h1]; simp)
        · exact Bool.eq_false_iff.mpr hr
      rw [show collapseWS (dropTrailing isGoSpace (stripMarks s)) =
        collapseWSGo false (dropTrailing isGoSpace (stripMarks s)) from rfl,
        htcase, wsGo_nosp false a ts hasp] at hc
      cases hc
      by_cases hgo : isGoSpace c = true
      · exact absurd (htchar c (by rw [htcase]; simp) hgo) (by rw [hasp]; simp)
      · exact Bool.eq_false_iff.mpr hgo
  have hulast : ∀ c,
      (collapseWS (dropTrailing isGoSpace (stripMarks s))).getLast? = some c →
      isGoSpace c = false :=
    collapseWSGo_getLast _ false htlastr htchar
  have humark : ∀ w : Str, (∀ ch ∈ w, (ch == ' ') = false) →
      startsWithLower w (dropTrailing isGoSpace (stripMarks s)) = false →
      startsWithLower w (collapseWS (dropTrailing isGoSpace (stripMarks s))) = false := by
    intro w hwch hw0
    by_cases hsw :
      startsWithLower w (collapseWS (dropTrailing isGoSpace (stripMarks s))) = true
    · rw [startsWithLower_collapseWS _ w hwch hsw] at hw0
      cases hw0
    · exact Bool.eq_false_iff.mpr hsw
  have hufix :
      tryStripMark (collapseWS (dropTrailing isGoSpace (stripMarks s))) = none := by
    rw [tryStripMark_none_iff]
    have h3 := (tryStripMark_none_iff _).mp htfix
    exact ⟨humark _ (by decide) h3.1, humark _ (by decide) h3.2.1,
      humark _ (by decide) h3.2.2⟩
  have hnhead : ∀ c,
      (lowerStr (collapseWS (dropTrailing isGoSpace (stripMarks s)))).head? = some c →
      isGoSpace c = false := by
    intro c hc
    rw [show lowerStr (collapseWS (dropTrailing isGoSpace (stripMarks s))) =
      List.map asciiLower (collapseWS (dropTrailing isGoSpace (stripMarks s))) from rfl,
      List.head?_map] at hc
    cases hu : (collapseWS (dropTrailing isGoSpace (stripMarks s))).head? with
    | none =>
      rw [hu] at hc
      cases hc
    | some c2 =>
      rw [hu] at hc
      cases hc
      exact isGoSpace_asciiLower_false c2 (huhead c2 hu)
  have hnlast : ∀ c,
      (lowerStr (collapseWS (dropTrailing isGoSpace (stripMarks s)))).getLast? = some c →
      isGoSpace c = false := by
    intro c hc
    rw [getLast?_lowerStr] at hc
    cases hu : (collapseWS (dropTrailing isGoSpace (stripMarks s))).getLast? with
    | none =>
      rw [hu] at hc
      cases hc
    | some c2 =>
      rw [hu] at hc
      cases hc
      exact isGoSpace_asciiLower_false c2 (hulast c2 hu)
  have hnfix :
      tryStripMark (lowerStr (collapseWS (dropTrailing isGoSpace (stripMarks s)))) =
        none := by
    rw [tryStripMark_none_iff]
    have h3 := (tryStripMark_none_iff _).mp hufix
    refine ⟨?_, ?_, ?_⟩
    · rw [startsWithLower_lowerStr]
      exact h3.1
    · rw [startsWithLower_lowerStr]
      exact h3.2.1
    · rw [startsWithLower_lowerStr]
      exact h3.2.2
  have hns : NormalizeSubject s =
      lowerStr (collapseWS (dropTrailing isGoSpace (stripMarks s))) := by
    rw [NormalizeSubject, hgt]
  rw [hns, NormalizeSubject, stripMarks_of_none _ hnfix,
    goTrim_eq_self _ hnhead hnlast]
  have hcw : collapseWS (lowerStr (collapseWS (dropTrailing isGoSpace (stripMarks s)))) =
      lowerStr (collapseWS (dropTrailing isGoSpace (stripMarks s))) := by
    rw [show collapseWS (lowerStr (collapseWS (dropTrailing isGoSpace (stripMarks s)))) =
      collapseWSGo false (lowerStr (collapseWSGo false
        (dropTrailing isGoSpace (stripMarks s)))) from rfl]
    rw [collapseWSGo_lower _ false, collapseWSGo_idem _ false]
    rfl
  rw [hcw]
  exact lowerStr_idem _

/-- C4 (counterexample): `NormalizeSubject` is not idempotent.  A subject
with leading spaces blocks the start-anchored mark pattern; `TrimSpace` then
exposes the mark, so a second application strips it:
one pass maps "  Re: x" to "re: x", a second pass maps that to "x". -/
theorem C4_counterexample :
    NormalizeSubject (NormalizeSubject ("  Re: x".data)) ≠
      NormalizeSubject ("  Re: x".data) := by
  decide

/-- C4 (amended): `NormalizeSubject` is idempotent on subjects that do not
begin with white space and whose white-space characters all lie in the regex
`\s` class (no vertical tab, no Unicode-only white space); the spec's
concrete example holds. -/
theorem C4_amended :
    (∀ s : Str, (∀ c ∈ s, isGoSpace c = true → regexSpace c = true) →
      (∀ c, s.head? = some c → isGoSpace c = false) →
      NormalizeSubject (NormalizeSubject s) = NormalizeSubject s) ∧
    NormalizeSubject ("RE: Re: Hello".data) = "hello".data ∧
    NormalizeSubject ("hello".data) = "hello".data :=
  ⟨fun s h1 h2 => normalizeSubject_idem_of_clean s h1 h2, by decide, by decide⟩

/-- C4 (witness for the amended theorem). -/
theorem C4_amended_witness :
    (∀ c ∈ ("Re: a b".data : Str), isGoSpace c = true → regexSpace c = true) ∧
    (∀ c : Char, ("Re: a b".data : Str).head? = some c → isGoSpace c = false) ∧
    NormalizeSubject (NormalizeSubject ("Re: a b".data)) =
      NormalizeSubject ("Re: a b".data) :=
  ⟨by decide, by decide, C4_amended.1 ("Re: a b".data) (by decide) (by decide)⟩

/-! Lemmas for the whitespace-cleanup idempotence analysis. -/

lemma stGo_nosp (b : Bool) (c : Char) (cs : Str)
    (h : (c == ' ' || c == '\t') = false) :
    collapseSTGo b (c :: cs) = c :: collapseSTGo false cs := by
  cases b with
  | true =>
    show (if (c == ' ' || c == '\t') = true then collapseSTGo true cs
      else c :: collapseSTGo false cs) = c :: collapseSTGo false cs
    rw [h]
    simp
  | false =>
    show (if (c == ' ' || c == '\t') = true then ' ' :: collapseSTGo true cs
      else c :: collapseSTGo false cs) = c :: collapseSTGo false cs
    rw [h]
    simp

lemma spaceTab_isGoSpace (c : Char) (h : (c == ' ' || c == '\t') = true) :
    isGoSpace c = true := by
  simp only [Bool.or_eq_true, beq_iff_eq] at h
  rcases h with rfl | rfl <;> decide

lemma stGo_id (s : Str) (h : ∀ c ∈ s, (c == ' ' || c == '\t') = false) :
    collapseSTGo false s = s := by
  induction s with
  | nil => rfl
  | cons c cs ih =>
    rw [stGo_nosp false c cs (h c (by simp)),
      ih (fun c2 hc2 => h c2 (List.mem_cons_of_mem _ hc2))]

lemma nlGo_nil (n : Nat) : collapseNLGo n [] = List.replicate (min n 2) '\n' := rfl

lemma nlGo_nl (n : Nat) (cs : Str) :
    collapseNLGo n ('\n' :: cs) = collapseNLGo (n + 1) cs := rfl

lemma nlGo_other (n : Nat) (c : Char) (cs : Str) (h : (c == '\n') = false) :
    collapseNLGo n (c :: cs) =
      List.replicate (min n 2) '\n' ++ c :: collapseNLGo 0 cs := by
  show (if (c == '\n') = true then collapseNLGo (n + 1) cs
    else List.replicate (min n 2) '\n' ++ c :: collapseNLGo 0 cs) = _
  rw [h]
  simp

lemma nl3_nl (run : Nat) (cs : Str) :
    hasNL3Go run ('\n' :: cs) =
      if 2 ≤ run then true else hasNL3Go (run + 1) cs := rfl

lemma nl3_other (run : Nat) (c : Char) (cs : Str) (h : c ≠ '\n') :
    hasNL3Go run (c :: cs) = hasNL3Go 0 cs := by
  show (if c = '\n' then (if 2 ≤ run then true else hasNL3Go (run + 1) cs)
    else hasNL3Go 0 cs) = hasNL3Go 0 cs
  rw [if_neg h]

lemma nl3_replicate_append (w : Str) :
    ∀ (j r : Nat), r + j ≤ 2 →
      hasNL3Go r (List.replicate j '\n' ++ w) = hasNL3Go (r + j) w := by
  intro j
  induction j with
  | zero => intro r _; rfl
  | succ j ih =>
    intro r hr
    rw [List.replicate_succ, List.cons_append, nl3_nl, if_neg (by omega)]
    have := ih (r + 1) (by omega)
    rw [this]
    congr 1
    omega

lemma nl3_collapse (x : Str) :
    ∀ n : Nat, hasNL3Go 0 (collapseNLGo n x) = false := by
  induction x with
  | nil =>
    intro n
    rw [nlGo_nil]
    have h0 : (0 : Nat) + min n 2 ≤ 2 := by omega
    have := nl3_replicate_append [] (min n 2) 0 h0
    rw [List.append_nil] at this
    rw [this]
    rfl
  | cons c cs ih =>
    intro n
    by_cases hc : c = '\n'
    · subst hc
      rw [nlGo_nl]
      exact ih (n + 1)
    · rw [nlGo_other n c cs (beq_eq_false_iff_ne.mpr hc)]
      have h0 : (0 : Nat) + min n 2 ≤ 2 := by omega
      rw [nl3_replicate_append (c :: collapseNLGo 0 cs) (min n 2) 0 h0]
      rw [nl3_other _ c _ hc]
      exact ih 0

lemma nl3_mono (x : Str) :
    ∀ r r2 : Nat, r2 ≤ r → hasNL3Go r x = false → hasNL3Go r2 x = false := by
  induction x with
  | nil => intro r r2 _ _; rfl
  | cons c cs ih =>
    intro r r2 hle h
    by_cases hc : c = '\n'
    · subst hc
      rw [nl3_nl] at h
      by_cases h2 : 2 ≤ r
      · rw [if_pos h2] at h
        cases h
      · rw [if_neg h2] at h
        rw [nl3_nl, if_neg (by omega)]
        exact ih (r + 1) (r2 + 1) (by omega) h
    · rw [nl3_other _ c _ hc] at h
      rw [nl3_other _ c _ hc]
      exact h

lemma nl3_fix (x : Str) :
    ∀ n : Nat, n ≤ 2 → hasNL3Go n x = false →
      collapseNLGo n x = List.replicate n '\n' ++ x := by
  induction x with
  | nil =>
    intro n hn _
    rw [nlGo_nil, Nat.min_eq_left hn, List.append_nil]
  | cons c cs ih =>
    intro n hn h
    by_cases hc : c = '\n'
    · subst hc
      rw [nl3_nl] at h
      by_cases h2 : 2 ≤ n
      · rw [if_pos h2] at h
        cases h
      · rw [if_neg h2] at h
        rw [nlGo_nl, ih (n + 1) (by omega) h, List.replicate_succ',
          List.append_assoc]
        rfl
    · rw [nl3_other _ c _ hc] at h
      rw [nlGo_other n c cs (beq_eq_false_iff_ne.mpr hc), Nat.min_eq_left hn,
        ih 0 (by omega) h]
      rfl

lemma nl3_suffix (x : Str) (h : hasNL3Go 0 x = false) :
    ∀ v : Str, v <:+ x → hasNL3Go 0 v = false := by
  induction x with
  | nil =>
    intro v hv
    rw [List.suffix_nil.mp hv]
    rfl
  | cons c cs ih =>
    have hcs : hasNL3Go 0 cs = false := by
      by_cases hc : c = '\n'
      · subst hc
        rw [nl3_nl, if_neg (by omega)] at h
        exact nl3_mono cs 1 0 (by omega) h
      · rw [nl3_other _ c _ hc] at h
        exact h
    intro v hv
    rcases List.suffix_cons_iff.mp hv with rfl | hv2
    · exact h
    · exact ih hcs v hv2

lemma nl3_isPre (x : Str) :
    ∀ (u : Str) (r : Nat), u <+: x → hasNL3Go r x = false → hasNL3Go r u = false := by
  induction x with
  | nil =>
    intro u r hu _
    rw [List.prefix_nil.mp hu]
    rfl
  | cons c cs ih =>
    intro u r hu h
    cases u with
    | nil => rfl
    | cons d du =>
      obtain ⟨t, ht⟩ := hu
      rw [List.cons_append] at ht
      injection ht with h1 h2
      subst h1
      have hpre : du <+: cs := ⟨t, h2⟩
      by_cases hc : d = '\n'
      · subst hc
        rw [nl3_nl] at h ⊢
        by_cases h2r : 2 ≤ r
        · rw [if_pos h2r] at h
          cases h
        · rw [if_neg h2r] at h ⊢
          exact ih du (r + 1) hpre h
      · rw [nl3_other _ d _ hc] at h ⊢
        exact ih du 0 hpre h

lemma splitNL_ne_nil (x : Str) : splitNL x ≠ [] := by
  cases x with
  | nil => simp [splitNL]
  | cons c cs =>
    rw [splitNL]
    by_cases hc : c = '\n'
    · rw [if_pos hc]
      simp
    · rw [if_neg hc]
      cases h : splitNL cs with
      | nil => simp
      | cons h2 t => simp

lemma joinNL_splitNL (x : Str) : joinNL (splitNL x) = x := by
  induction x with
  | nil => rfl
  | cons c cs ih =>
    rw [splitNL]
    by_cases hc : c = '\n'
    · rw [if_pos hc]
      subst hc
      cases h : splitNL cs with
      | nil => exact absurd h (splitNL_ne_nil cs)
      | cons r0 r1 =>
        rw [show joinNL ([] :: r0 :: r1) = [] ++ '\n' :: joinNL (r0 :: r1) from rfl]
        rw [← h, ih]
        rfl
    · rw [if_neg hc]
      cases h : splitNL cs with
      | nil => exact absurd h (splitNL_ne_nil cs)
      | cons r0 r1 =>
        cases r1 with
        | nil =>
          rw [show joinNL [c :: r0] = c :: r0 from rfl]
          rw [h] at ih
          rw [show joinNL [r0] = r0 from rfl] at ih
          rw [ih]
        | cons r2 r3 =>
          rw [show joinNL ((c :: r0) :: r2 :: r3) =
            (c :: r0) ++ '\n' :: joinNL (r2 :: r3) from rfl]
          rw [h] at ih
          rw [show joinNL (r0 :: r2 :: r3) =
            r0 ++ '\n' :: joinNL (r2 :: r3) from rfl] at ih
          rw [List.cons_append, ih]

lemma splitNL_line_mem (x : Str) :
    ∀ l ∈ splitNL x, ∀ c ∈ l, c ∈ x ∧ c ≠ '\n' := by
  induction x with
  | nil =>
    intro l hl c hc
    rw [show splitNL [] = [[]] from rfl] at hl
    rcases List.mem_singleton.mp hl with rfl
    cases hc
  | cons a cs ih =>
    intro l hl c hc
    rw [splitNL] at hl
    by_cases ha : a = '\n'
    · rw [if_pos ha] at hl
      rcases List.mem_cons.mp hl with rfl | hl2
      · cases hc
      · have := ih l hl2 c hc
        exact ⟨List.mem_cons_of_mem _ this.1, this.2⟩
    · rw [if_neg ha] at hl
      cases h : splitNL cs with
      | nil => exact absurd h (splitNL_ne_nil cs)
      | cons r0 r1 =>
        rw [h] at hl
        rcases List.mem_cons.mp hl with rfl | hl2
        · rcases List.mem_cons.mp hc with rfl | hc2
          · exact ⟨List.mem_cons_self _ _, ha⟩
          · have := ih r0 (by rw [h]; exact List.mem_cons_self _ _) c hc2
            exact ⟨List.mem_cons_of_mem _ this.1, this.2⟩
        · have := ih l (by rw [h]; exact List.mem_cons_of_mem _ hl2) c hc
          exact ⟨List.mem_cons_of_mem _ this.1, this.2⟩

lemma goTrim_eq_self_of_all (l : Str) (h : ∀ c ∈ l, isGoSpace c = false) :
    goTrim l = l :=
  goTrim_eq_self l (fun c hc => h c (mem_of_head? l c hc))
    (fun c hc => h c (mem_of_getLast? l c hc))

lemma trimLines_id (x : Str) (h : ∀ l ∈ splitNL x, goTrim l = l) :
    trimLines x = x := by
  rw [trimLines, List.map_congr_left h, List.map_id', joinNL_splitNL]

lemma mem_collapseNLGo (x : Str) :
    ∀ (n : Nat) (c : Char), c ∈ collapseNLGo n x → c = '\n' ∨ c ∈ x := by
  induction x with
  | nil =>
    intro n c hc
    rw [nlGo_nil] at hc
    exact Or.inl (List.eq_of_mem_replicate hc)
  | cons a cs ih =>
    intro n c hc
    by_cases ha : a = '\n'
    · subst ha
      rw [nlGo_nl] at hc
      rcases ih (n + 1) c hc with h1 | h1
      · exact Or.inl h1
      · exact Or.inr (List.mem_cons_of_mem _ h1)
    · rw [nlGo_other n a cs (beq_eq_false_iff_ne.mpr ha)] at hc
      rcases List.mem_append.mp hc with h1 | h1
      · exact Or.inl (List.eq_of_mem_replicate h1)
      · rcases List.mem_cons.mp h1 with rfl | h2
        · exact Or.inr (List.mem_cons_self _ _)
        · rcases ih 0 c h2 with h3 | h3
          · exact Or.inl h3
          · exact Or.inr (List.mem_cons_of_mem _ h3)

lemma mem_goTrim (l : Str) (c : Char) (hc : c ∈ goTrim l) : c ∈ l := by
  rw [goTrim] at hc
  exact (List.dropWhile_sublist _).subset
    ((dropTrailing_isPre isGoSpace _).subset hc)

lemma head?_goTrim (l : Str) :
    ∀ c, (goTrim l).head? = some c → isGoSpace c = false := by
  intro c hc
  have hne : goTrim l ≠ [] := by
    intro h0
    rw [h0] at hc
    cases hc
  rw [goTrim] at hc hne
  rw [head?_of_isPre _ _ (dropTrailing_isPre _ _) hne] at hc
  exact head?_dropWhile_not _ _ c hc

lemma goTrim_idem (l : Str) : goTrim (goTrim l) = goTrim l :=
  goTrim_eq_self _ (head?_goTrim l) (getLast?_dropTrailing _ _)

lemma goTrim_infix (l : Str) : ∃ u v : Str, l = u ++ goTrim l ++ v := by
  obtain ⟨u, hu⟩ := List.dropWhile_suffix (l := l) (p := isGoSpace)
  obtain ⟨v, hv⟩ := dropTrailing_isPre isGoSpace (l.dropWhile isGoSpace)
  have hv2 : goTrim l ++ v = l.dropWhile isGoSpace := hv
  rw [← hv2] at hu
  refine ⟨u, v, ?_⟩
  rw [List.append_assoc]
  exact hu.symm

lemma nl3_goTrim (l : Str) (h : hasNL3Go 0 l = false) :
    hasNL3Go 0 (goTrim l) = false := by
  have hsuf : hasNL3Go 0 (l.dropWhile isGoSpace) = false :=
    nl3_suffix l h _ (List.dropWhile_suffix _)
  exact nl3_isPre _ _ 0 (dropTrailing_isPre _ _) hsuf

lemma char_plain_not_spacetab (c : Char) (h : c = '\n' ∨ isGoSpace c = false) :
    (c == ' ' || c == '\t') = false := by
  rcases h with rfl | hgo
  · decide
  · by_cases hsp : (c == ' ' || c == '\t') = true
    · rw [spaceTab_isGoSpace c hsp] at hgo
      cases hgo
    · exact Bool.eq_false_iff.mpr hsp

lemma trimLines_id_of_plain (x : Str)
    (hx : ∀ c ∈ x, c = '\n' ∨ isGoSpace c = false) : trimLines x = x := by
  refine trimLines_id x (fun l hl => goTrim_eq_self_of_all l (fun c hc => ?_))
  have hm := splitNL_line_mem x l hl c hc
  rcases hx c hm.1 with rfl | hgo
  · exact absurd rfl hm.2
  · exact hgo

/-- C8 (amended, main part): the whitespace cleanup is idempotent on strings
whose characters are newlines or non-white-space (so nothing for the
space/tab collapapse or the per-line trim to do except on line boundaries). -/
theorem cleanWhitespace_idem_of_plain (s : Str)
    (h : ∀ c ∈ s, c = '\n' ∨ isGoSpace c = false) :
    cleanWhitespace (cleanWhitespace s) = cleanWhitespace s := by
  have h1 : collapseST s = s :=
    stGo_id s (fun c hc => char_plain_not_spacetab c (h c hc))
  have hy : ∀ c ∈ collapseNL3 s, c = '\n' ∨ isGoSpace c = false := by
    intro c hc
    rcases mem_collapseNLGo s 0 c hc with h2 | h2
    · exact Or.inl h2
    · exact h c h2
  have h2 : trimLines (collapseNL3 s) = collapseNL3 s := trimLines_id_of_plain _ hy
  have hcs : cleanWhitespace s = goTrim (collapseNL3 s) := by
    rw [cleanWhitespace, h1, h2]
  have hz_plain : ∀ c ∈ goTrim (collapseNL3 s), c = '\n' ∨ isGoSpace c = false :=
    fun c hc => hy c (mem_goTrim _ c hc)
  have hz_nl3 : hasNL3Go 0 (goTrim (collapseNL3 s)) = false :=
    nl3_goTrim _ (nl3_collapse s 0)
  have hst2 : collapseST (goTrim (collapseNL3 s)) = goTrim (collapseNL3 s) :=
    stGo_id _ (fun c hc => char_plain_not_spacetab c (hz_plain c hc))
  rw [hcs, cleanWhitespace, hst2]
  have h3 : collapseNL3 (goTrim (collapseNL3 s)) = goTrim (collapseNL3 s) := by
    have h4 : collapseNL3 (goTrim (collapseNL3 s)) =
        List.replicate 0 '\n' ++ goTrim (collapseNL3 s) :=
      nl3_fix (goTrim (collapseNL3 s)) 0 (by omega) hz_nl3
    rw [h4]
    rfl
  rw [h3, trimLines_id_of_plain _ hz_plain]
  exact goTrim_idem _

/-- C8 (counterexample): `cleanWhitespace` is not idempotent.  Lines holding
only spaces survive the newline-collapsing step but are emptied by the
per-line trim, which can create a fresh run of three newlines that only a
second application collapses. -/
theorem C8_counterexample :
    cleanWhitespace (cleanWhitespace ("a\n \n \nb".data)) ≠
      cleanWhitespace ("a\n \n \nb".data) := by
  decide

/-- C8 (amended): the whitespace-cleanup step is idempotent on every string
whose white space consists of newlines only — in particular the outputs of
both extraction paths are stable under re-application whenever they contain
no residual blank-only lines; in general a whitespace-only line defeats
idempotence (see the counterexample). -/
theorem C8_amended :
    (∀ s : Str, (∀ c ∈ s, c = '\n' ∨ isGoSpace c = false) →
      cleanWhitespace (cleanWhitespace s) = cleanWhitespace s) ∧
    cleanWhitespace ("a\n\n\n\nb".data) = "a\n\nb".data ∧
    cleanWhitespace ("a\n\nb".data) = "a\n\nb".data :=
  ⟨fun s h => cleanWhitespace_idem_of_plain s h, by decide, by decide⟩

/-- C8 (witness for the amended theorem). -/
theorem C8_amended_witness :
    (∀ c ∈ ("a\n\n\n\nb".data : Str), c = '\n' ∨ isGoSpace c = false) ∧
    cleanWhitespace (cleanWhitespace ("a\n\n\n\nb".data)) =
      cleanWhitespace ("a\n\n\n\nb".data) :=
  ⟨by decide, C8_amended.1 ("a\n\n\n\nb".data) (by decide)⟩

/-! ## Concrete evaluation checks of the embedded functions -/

example : goTrim ("  a b ".data) = "a b".data := by decide
example : splitNL ("a\nb\n".data) = ["a".data, "b".data, []] := by decide
example : startsWithLower ("re:".data) ("RE: x".data) = true := by decide

example : collapseST ("a \t b".data) = "a b".data := by decide
example : collapseNL3 ("a\n\n\n\nb".data) = "a\n\nb".data := by decide
example : collapseWS ("a \n\t b".data) = "a b".data := by decide

example : StripQuotes ("hi\n> quoted\nbye".data) = "hi\n\nbye".data := by decide
example : StripSignature ("Hello\n\n--\nJohn Doe".data) = "Hello".data := by decide
example : StripSignature ("Hello\n\nSent from my iPhone".data) = "Hello".data := by
  decide

example : NormalizeSubject ("RE: Re: Hello".data) = "hello".data := by decide
example : NormalizeSubject ("Fwd:  Fw:re:a  b".data) = "a b".data := by decide

example : cleanWhitespace ("  a \t b\n\n\n\nc ".data) = "a b\n\nc".data := by decide

example :
    extractText (.elem ("p".data)
      (.cons (.text ("Hello".data))
        (.cons (.elem ("br".data) .nil)
          (.cons (.text ("World".data)) .nil)))) =
      "\nHello\nWorld\n".data := by decide
